import Mathlib

/-
Shallow embedding of the `goap` goal-oriented action planner (Rust).

Modelling conventions:
- Rust `i32` values (property values, durations, times) are embedded as `ℤ`;
  the program never relies on wrap-around for the properties at issue.
- Rust `f32` scores (weights, discontentment, costs) are embedded as exact
  rationals `ℚ`; the claims under study are order/sign/structure facts that are
  stated over the exact field arithmetic the source expressions denote.
- `HashMap<String, V>` is embedded as an association list `List (String × V)`
  looked up by key; iteration order of a hash map is not a function of its
  content, so the list order stands for the (arbitrary) iteration order and
  theorems quantify over it.
- Fallible Rust functions returning `Option` are embedded as `Option`.
-/

namespace Goap

/-- src/action.rs: `Action { label, duration, deltas }`. -/
structure Action where
  label : String
  duration : ℤ
  deltas : List (String × ℤ)
deriving DecidableEq

/-- src/state.rs: `State(HashMap<String, i32>)`.  `props` is the underlying
key/value sequence in the map's iteration order. -/
structure State where
  props : List (String × ℤ)
deriving DecidableEq

/-- First-occurrence lookup in an association list; embeds `HashMap::get`. -/
def lookupKey : List (String × ℤ) → String → Option ℤ
  | [], _ => none
  | kv :: rest, k => if kv.1 = k then some kv.2 else lookupKey rest k

/-- src/state.rs: `State::get`. -/
def State.get (s : State) (k : String) : Option ℤ :=
  lookupKey s.props k

/-- `*state.get(key).unwrap_or(&0)` — the default-0 read used at every call
site. -/
def State.getD (s : State) (k : String) : ℤ :=
  (s.get k).getD 0

/-- src/state.rs: `State::insert` (replacing insert, as in `HashMap::insert`).
The representation places the new pair first; `get` semantics coincide with the
hash map's. -/
def State.insert (s : State) (k : String) (v : ℤ) : State :=
  ⟨(k, v) :: s.props.filter (fun kv => decide (kv.1 ≠ k))⟩

/-- The loop body of `State::apply`: fold the action's deltas over a working
copy, failing (with no partial result) as soon as a new value would be
negative. -/
def applyDeltas : State → List (String × ℤ) → Option State
  | s, [] => some s
  | s, (k, d) :: rest =>
    let old_val := (s.get k).getD 0
    let new_val := old_val + d
    if new_val < 0 then none else applyDeltas (s.insert k new_val) rest

/-- src/state.rs: `State::apply`. -/
def State.apply (s : State) (action : Action) : Option State :=
  applyDeltas s action.deltas

/-- A model of the byte stream the `Hash for State` impl feeds to the hasher:
the key/value pairs in the container's iteration order, combined by an
order-sensitive accumulator (as any stream hasher is).  `strCode`/`intCode`
encode the primitive `hash` calls. -/
def strCode (s : String) : ℕ :=
  s.data.foldl (fun h c => h * 256 + c.toNat + 1) 0

/-- Injective encoding of the `i32` fed to the hasher. -/
def intCode (v : ℤ) : ℕ :=
  if v < 0 then 2 * v.natAbs + 1 else 2 * v.natAbs

/-- src/state.rs: `impl Hash for State` — hashes the pairs in the order
`for (key, value) in &self.0` visits them (the underlying `HashMap`'s
iteration order, i.e. the order of `props`). -/
def State.hashVal (s : State) : ℕ :=
  s.props.foldl (fun h kv => (h * 1000003 + strCode kv.1) * 1000003 + intCode kv.2) 0

/-- Content equality of two states, as `PartialEq` on the underlying
`HashMap` decides it: each side's entries are present in the other. -/
def stateContentEqb (s t : State) : Bool :=
  s.props.all (fun kv => t.get kv.1 == some kv.2) &&
    t.props.all (fun kv => s.get kv.1 == some kv.2)

/-- src/goal.rs: `DiscontentmentKind` — the only two variants in the source. -/
inductive DiscontentmentKind
  | StayAbove
  | StayBelow
deriving DecidableEq

/-- src/goal.rs: `Goal { weight, property, target, kind }` (no scale field in
the source). -/
structure Goal where
  weight : ℚ
  property : String
  target : ℤ
  kind : DiscontentmentKind
deriving DecidableEq

/-- The body of `Goal::discontentment` as a function of the current value:
`((target - current).max(0) as f32 / target as f32) * weight` when the guard
fires, else `0.0`.  (src/model.rs invokes it with the value it read from the
state; src/goal.rs's own header reads the value from the state itself —
`discontentmentState` below.) -/
def Goal.discontentment (g : Goal) (current_value : ℤ) : ℚ :=
  match g.kind with
  | .StayAbove =>
    if current_value < g.target then
      (((max (g.target - current_value) 0 : ℤ) : ℚ) / (g.target : ℚ)) * g.weight
    else 0
  | .StayBelow =>
    if g.target < current_value then
      (((max (current_value - g.target) 0 : ℤ) : ℚ) / (g.target : ℚ)) * g.weight
    else 0

/-- src/goal.rs: `Goal::discontentment(&self, state)` — reads
`state.properties.get(&self.property).unwrap_or(&0)` and applies the kind
formula. -/
def Goal.discontentmentState (g : Goal) (state : State) : ℚ :=
  g.discontentment (state.getD g.property)

/-- src/model.rs: `Model { time, state, goals, action_history }`. -/
structure Model where
  time : ℤ
  state : State
  goals : List (String × Goal)
  action_history : List Action

/-- src/model.rs: `Model::new`. -/
def Model.new (state : State) (goals : List (String × Goal)) : Model :=
  ⟨0, state, goals, []⟩

/-- src/model.rs: `Model::apply` — delegates to `State::apply`; on success
extends time by the action's duration and the history by the action. -/
def Model.apply (m : Model) (action : Action) : Option Model :=
  match m.state.apply action with
  | some next_state =>
    some ⟨m.time + action.duration, next_state, m.goals, m.action_history ++ [action]⟩
  | none => none

/-- src/model.rs: `Model::calculate_discontentment` — sums, over the goals
map, each goal's discontentment at the value read from the state under the
goal's map key. -/
def Model.calculate_discontentment (m : Model) : ℚ :=
  m.goals.foldl (fun total ng => total + ng.2.discontentment (m.state.getD ng.1)) 0

/-- src/planner.rs: `Algorithm`. -/
inductive Algorithm
  | Traditional
  | Efficient
  | Hybrid
deriving DecidableEq

/-- src/planner.rs: `Solution`. -/
inductive Solution
  | Fast
  | Best
deriving DecidableEq

/-- src/planner.rs: `Plan { total_discontentment, total_time, actions }`. -/
structure Plan where
  total_discontentment : ℚ
  total_time : ℤ
  actions : List (String × Action)
deriving DecidableEq

/-- src/planner.rs: `Planner { algorithm, solution, max_depth, actions }`. -/
structure Planner where
  algorithm : Algorithm
  solution : Solution
  max_depth : ℕ
  actions : List (String × Action)

/-- src/planner.rs: `AStarNode`. -/
structure AStarNode where
  cost_so_far : ℚ
  estimated_total : ℚ
  time : ℤ
  model : Model
  plan : List (String × Action)

/-- `f32::EPSILON` = 2⁻²³, the Fast-mode termination threshold. -/
def f32EPSILON : ℚ := 1 / 8388608

/-- `f32::MAX` = 2¹²⁸ − 2¹⁰⁴ (exact). -/
def f32MAX : ℚ := 340282346638528859811704183484516925440

/-- `f32::MIN` = −`f32::MAX` (exact). -/
def f32MIN : ℚ := -340282346638528859811704183484516925440

/-- Pop of the `BinaryHeap` with the source's flipped `Ord`: the node with
the smallest `estimated_total` leaves the frontier (leftmost on ties; the
heap's tie order is unspecified, and no claim depends on it). -/
def popMinNode : List AStarNode → Option (AStarNode × List AStarNode)
  | [] => none
  | n :: rest =>
    match popMinNode rest with
    | none => some (n, [])
    | some (m, rest') =>
      if n.estimated_total ≤ m.estimated_total then some (n, rest) else some (m, n :: rest')

/-- `visited.get(&state)` — key lookup by the `State`'s content equality. -/
def visitedLookup : List (State × ℚ) → State → Option ℚ
  | [], _ => none
  | sg :: rest, t => if stateContentEqb sg.1 t then some sg.2 else visitedLookup rest t

/-- `visited.insert(state, g)` — replacing insert keyed by content equality. -/
def visitedInsert (vis : List (State × ℚ)) (s : State) (g : ℚ) : List (State × ℚ) :=
  (s, g) :: vis.filter (fun sg => !(stateContentEqb sg.1 s))

/-- The frontier entry pushed while expanding `n` with action `la` whose
application yielded `next`; `g` is the algorithm's new cost, `h` the shared
heuristic `calculate_discontentment`. -/
def pushNode (gStep : AStarNode → Action → Model → ℚ) (n : AStarNode)
    (la : String × Action) (next : Model) : AStarNode :=
  let g := gStep n la.2 next
  ⟨g, g + next.calculate_discontentment, n.time + la.2.duration, next, n.plan ++ [la]⟩

/-- The A* loop shared (verbatim but for the cost update `gStep`) by
`fast_total_plan`, `fast_efficiency_plan` and `fast_hybrid_plan`:
pop the minimum; dominance-prune against `visited`; return the popped node's
plan when its discontentment is below `f32::EPSILON` or its path length has
reached `max_depth`; otherwise record it visited and push every valid,
non-dominated successor.  `fuel` bounds the iterations (the Rust loop
terminates; on exhaustion we return the same fallback as an empty frontier,
and every theorem below holds for every fuel). -/
def fastLoop (acts : List (String × Action)) (gStep : AStarNode → Action → Model → ℚ)
    (maxDepth : ℕ) (fallback : Plan) :
    ℕ → List (State × ℚ) → List AStarNode → Plan
  | 0, _, _ => fallback
  | fuel + 1, visited, frontier =>
    match popMinNode frontier with
    | none => fallback
    | some (node, rest) =>
      let skip :=
        match visitedLookup visited node.model.state with
        | some best_known => decide (best_known < node.cost_so_far)
        | none => false
      if skip then
        fastLoop acts gStep maxDepth fallback fuel visited rest
      else if node.model.calculate_discontentment < f32EPSILON ∨
          maxDepth ≤ node.plan.length then
        ⟨node.model.calculate_discontentment, node.time, node.plan⟩
      else
        let visited' := visitedInsert visited node.model.state node.cost_so_far
        let pushes := acts.filterMap (fun la =>
          match node.model.apply la.2 with
          | none => none
          | some next_model =>
            let new_g := gStep node la.2 next_model
            let ok :=
              match visitedLookup visited' next_model.state with
              | none => true
              | some old_g => decide (new_g < old_g)
            if ok then some (pushNode gStep node la next_model) else none)
        fastLoop acts gStep maxDepth fallback fuel visited' (rest ++ pushes)

/-- Cost update of `fast_total_plan`: `new_g = g + child discontentment`. -/
def gStepTotal : AStarNode → Action → Model → ℚ :=
  fun n _ next => n.cost_so_far + next.calculate_discontentment

/-- Cost update of `fast_efficiency_plan`: accumulate the inverse efficiency
`1 / (efficiency + 1e-6)` with
`efficiency = (parent disc − child disc) / max(duration, 1)`. -/
def gStepEfficiency : AStarNode → Action → Model → ℚ :=
  fun n a next =>
    let discontent_delta :=
      n.model.calculate_discontentment - next.calculate_discontentment
    let efficiency := discontent_delta / ((max a.duration 1 : ℤ) : ℚ)
    n.cost_so_far + 1 / (efficiency + 1 / 1000000)

/-- Cost update of `fast_hybrid_plan`: inverse efficiency once the popped
node's depth exceeds 2 and the local efficiency exceeds 0.1, else the child's
discontentment. -/
def gStepHybrid : AStarNode → Action → Model → ℚ :=
  fun n a next =>
    let discontent_delta :=
      n.model.calculate_discontentment - next.calculate_discontentment
    let efficiency := discontent_delta / ((max a.duration 1 : ℤ) : ℚ)
    let metric :=
      if 2 < n.plan.length ∧ 1 / 10 < efficiency then 1 / (efficiency + 1 / 1000000)
      else next.calculate_discontentment
    n.cost_so_far + metric

/-- src/planner.rs: `fast_total_plan` — seed `g` with the start
discontentment, `f = g + h` with `h` the same discontentment. -/
def Planner.fast_total_plan (p : Planner) (fuel : ℕ) (start_model : Model) : Plan :=
  let start_discontent := start_model.calculate_discontentment
  let start_h := start_discontent
  let n0 : AStarNode :=
    ⟨start_discontent, start_discontent + start_h, 0, start_model, []⟩
  fastLoop p.actions gStepTotal p.max_depth ⟨start_discontent, 0, []⟩ fuel [] [n0]

/-- src/planner.rs: `fast_efficiency_plan` — seed `g = 0`, `f = h`. -/
def Planner.fast_efficiency_plan (p : Planner) (fuel : ℕ) (start_model : Model) : Plan :=
  let start_discontent := start_model.calculate_discontentment
  let start_h := start_discontent
  let n0 : AStarNode := ⟨0, start_h, 0, start_model, []⟩
  fastLoop p.actions gStepEfficiency p.max_depth ⟨start_discontent, 0, []⟩ fuel [] [n0]

/-- src/planner.rs: `fast_hybrid_plan` — seed `g = 0`, `f = h`. -/
def Planner.fast_hybrid_plan (p : Planner) (fuel : ℕ) (start_model : Model) : Plan :=
  let start_discontent := start_model.calculate_discontentment
  let start_h := start_discontent
  let n0 : AStarNode := ⟨0, start_h, 0, start_model, []⟩
  fastLoop p.actions gStepHybrid p.max_depth ⟨start_discontent, 0, []⟩ fuel [] [n0]

/-- The loop body of `best_total_plan`: try the action, solve the successor
one level shallower (`solve`), and keep the candidate on strictly lower
discontentment, or on equal discontentment and strictly lower cumulative
time.  The accumulator is `(best_score, best_time, best_plan)`. -/
def bestTotalStep (solve : Model → Plan) (model : Model)
    (acc : ℚ × ℤ × List (String × Action)) (la : String × Action) :
    ℚ × ℤ × List (String × Action) :=
  match model.apply la.2 with
  | none => acc
  | some next_model =>
    let sub := solve next_model
    if sub.total_discontentment < acc.1 ∨
        (sub.total_discontentment = acc.1 ∧
          sub.total_time + la.2.duration < acc.2.1) then
      (sub.total_discontentment, sub.total_time + la.2.duration, la :: sub.actions)
    else acc

/-- src/planner.rs: `best_total_plan` (memo elided: the memo table caches a
pure function of `(state, depth)` — the result depends on the model only
through its state, the goals being carried unchanged — so the memoized and
plain recursions return the same plan). -/
def Planner.best_total_plan (p : Planner) (model : Model) : ℕ → Plan
  | 0 => ⟨model.calculate_discontentment, 0, []⟩
  | d + 1 =>
    let r := p.actions.foldl
      (bestTotalStep (fun next_model => p.best_total_plan next_model d) model)
      (model.calculate_discontentment, 0, [])
    ⟨r.1, r.2.1, r.2.2⟩

/-- The loop body of `best_efficiency_plan`: keep the candidate on strictly
higher total efficiency `(current − sub disc) / max(total time, 1)`, or on
equal efficiency and strictly lower time.  The accumulator is
`(best_efficiency, best_time, best_discontent, best_plan)`. -/
def bestEfficiencyStep (solve : Model → Plan) (current_score : ℚ) (model : Model)
    (acc : ℚ × ℤ × ℚ × List (String × Action)) (la : String × Action) :
    ℚ × ℤ × ℚ × List (String × Action) :=
  match model.apply la.2 with
  | none => acc
  | some next_model =>
    let sub := solve next_model
    let total_discontent_delta := current_score - sub.total_discontentment
    let total_time := sub.total_time + la.2.duration
    let total_efficiency := total_discontent_delta / ((max total_time 1 : ℤ) : ℚ)
    if acc.1 < total_efficiency ∨
        (total_efficiency = acc.1 ∧ total_time < acc.2.1) then
      (total_efficiency, total_time, sub.total_discontentment, la :: sub.actions)
    else acc

/-- src/planner.rs: `best_efficiency_plan` (memo elided as above), seeded
`(f32::MIN, 0, current_score, [])`. -/
def Planner.best_efficiency_plan (p : Planner) (model : Model) : ℕ → Plan
  | 0 => ⟨model.calculate_discontentment, 0, []⟩
  | d + 1 =>
    let current_score := model.calculate_discontentment
    let r := p.actions.foldl
      (bestEfficiencyStep (fun next_model => p.best_efficiency_plan next_model d)
        current_score model)
      (f32MIN, 0, current_score, [])
    ⟨r.2.2.1, r.2.1, r.2.2.2⟩

/-- The loop body of `best_hybrid_plan` at remaining depth `depth`: the
metric is the inverse local efficiency when `depth > 2` and the local
efficiency exceeds 0.1, else the child's discontentment; keep the candidate
on strictly lower metric, or on equal metric and strictly lower time.  The
accumulator is `(best_metric, best_time, best_plan)`. -/
def bestHybridStep (solve : Model → Plan) (current_score : ℚ) (depth : ℕ) (model : Model)
    (acc : ℚ × ℤ × List (String × Action)) (la : String × Action) :
    ℚ × ℤ × List (String × Action) :=
  match model.apply la.2 with
  | none => acc
  | some next_model =>
    let discontent_delta := current_score - next_model.calculate_discontentment
    let efficiency := discontent_delta / ((max la.2.duration 1 : ℤ) : ℚ)
    let metric :=
      if 2 < depth ∧ 1 / 10 < efficiency then 1 / (efficiency + 1 / 1000000)
      else next_model.calculate_discontentment
    let sub := solve next_model
    if metric < acc.1 ∨
        (metric = acc.1 ∧ sub.total_time + la.2.duration < acc.2.1) then
      (metric, sub.total_time + la.2.duration, la :: sub.actions)
    else acc

/-- src/planner.rs: `best_hybrid_plan` (memo elided as above), seeded
`(f32::MAX, 0, [])`; the returned discontentment is reconstructed as
`current_score - 1.0 / best_metric` when any candidate was taken. -/
def Planner.best_hybrid_plan (p : Planner) (model : Model) : ℕ → Plan
  | 0 => ⟨model.calculate_discontentment, 0, []⟩
  | d + 1 =>
    let current_score := model.calculate_discontentment
    let r := p.actions.foldl
      (bestHybridStep (fun next_model => p.best_hybrid_plan next_model d)
        current_score (d + 1) model)
      (f32MAX, 0, [])
    let final_discontent := if r.1 ≠ f32MAX then current_score - 1 / r.1 else current_score
    ⟨final_discontent, r.2.1, r.2.2⟩

/-- src/planner.rs: `Planner::plan` — dispatch on `(algorithm, solution)`.
`fuel` bounds the Fast-mode loops only (see `fastLoop`). -/
def Planner.plan (p : Planner) (fuel : ℕ) (model : Model) : Plan :=
  match p.algorithm, p.solution with
  | .Traditional, .Fast => p.fast_total_plan fuel model
  | .Efficient, .Fast => p.fast_efficiency_plan fuel model
  | .Hybrid, .Fast => p.fast_hybrid_plan fuel model
  | .Traditional, .Best => p.best_total_plan model p.max_depth
  | .Efficient, .Best => p.best_efficiency_plan model p.max_depth
  | .Hybrid, .Best => p.best_hybrid_plan model p.max_depth

/-- Replaying an action sequence from a model, step by step through
`Model::apply` — the presentation layer's replay described in the spec. -/
def replayM : Model → List (String × Action) → Option Model
  | m, [] => some m
  | m, la :: rest =>
    match m.apply la.2 with
    | some m' => replayM m' rest
    | none => none

/-! ### Lemmas about `State.get` / `State.insert` / `State.apply` -/

theorem lookupKey_filter_ne (l : List (String × ℤ)) (k k' : String) (h : k' ≠ k) :
    lookupKey (l.filter (fun kv => !decide (kv.1 = k))) k' = lookupKey l k' := by
  induction l with
  | nil => rfl
  | cons kv rest ih =>
    by_cases hk : kv.1 = k
    · have hne : ¬ kv.1 = k' := by
        intro hk'
        exact h (hk' ▸ hk)
      simp [List.filter_cons, hk, lookupKey, hne, ih]
      rw [if_neg (Ne.symm h)]
    · simp [List.filter_cons, hk, lookupKey, ih]

theorem State.get_insert_self (s : State) (k : String) (v : ℤ) :
    (s.insert k v).get k = some v := by
  simp [State.insert, State.get, lookupKey]

theorem State.get_insert_ne (s : State) (k k' : String) (v : ℤ) (h : k' ≠ k) :
    (s.insert k v).get k' = s.get k' := by
  have hne : ¬ k = k' := fun hk => h hk.symm
  simp [State.insert, State.get, lookupKey, hne]
  exact lookupKey_filter_ne s.props k k' h

theorem applyDeltas_get_not_mem (l : List (String × ℤ)) (s t : State) (k : String)
    (hk : k ∉ l.map Prod.fst) (happ : applyDeltas s l = some t) :
    t.get k = s.get k := by
  induction l generalizing s with
  | nil =>
    simp [applyDeltas] at happ
    exact happ ▸ rfl
  | cons kd rest ih =>
    simp only [List.map_cons, List.mem_cons] at hk
    push_neg at hk
    simp only [applyDeltas] at happ
    by_cases hneg : (s.get kd.1).getD 0 + kd.2 < 0
    · simp [hneg] at happ
    · simp only [hneg, if_false] at happ
      have := ih (s.insert kd.1 ((s.get kd.1).getD 0 + kd.2)) hk.2 happ
      rw [this, State.get_insert_ne _ _ _ _ hk.1]

theorem applyDeltas_isSome_iff (l : List (String × ℤ)) (s : State)
    (hnd : (l.map Prod.fst).Nodup) :
    (applyDeltas s l).isSome ↔ ∀ kd ∈ l, 0 ≤ s.getD kd.1 + kd.2 := by
  induction l generalizing s with
  | nil => simp [applyDeltas]
  | cons kd rest ih =>
    simp only [List.map_cons, List.nodup_cons] at hnd
    by_cases hneg : (s.get kd.1).getD 0 + kd.2 < 0
    · simp only [applyDeltas, hneg, if_true]
      constructor
      · intro h
        simp at h
      · intro h
        have := h kd (by simp)
        rw [State.getD] at this
        omega
    · simp only [applyDeltas, hneg, if_false]
      rw [ih _ hnd.2]
      constructor
      · intro h kd' hkd'
        rcases List.mem_cons.mp hkd' with h1 | h2
        · subst h1
          rw [State.getD]
          omega
        · have hne : kd'.1 ≠ kd.1 := by
            intro he
            exact hnd.1 (he ▸ List.mem_map_of_mem Prod.fst h2)
          have := h kd' h2
          rwa [State.getD, State.get_insert_ne _ _ _ _ hne, ← State.getD] at this
      · intro h kd' hkd'
        have hne : kd'.1 ≠ kd.1 := by
          intro he
          exact hnd.1 (he ▸ List.mem_map_of_mem Prod.fst hkd')
        have := h kd' (List.mem_cons_of_mem _ hkd')
        rwa [State.getD, State.get_insert_ne _ _ _ _ hne, ← State.getD]

theorem applyDeltas_get_mem (l : List (String × ℤ)) (s t : State) (kd : String × ℤ)
    (hnd : (l.map Prod.fst).Nodup) (hmem : kd ∈ l) (happ : applyDeltas s l = some t) :
    t.get kd.1 = some (s.getD kd.1 + kd.2) := by
  induction l generalizing s with
  | nil => simp at hmem
  | cons kd0 rest ih =>
    simp only [List.map_cons, List.nodup_cons] at hnd
    simp only [applyDeltas] at happ
    by_cases hneg : (s.get kd0.1).getD 0 + kd0.2 < 0
    · simp [hneg] at happ
    · simp only [hneg, if_false] at happ
      rcases List.mem_cons.mp hmem with h1 | h2
      · subst h1
        have hnot : kd.1 ∉ rest.map Prod.fst := hnd.1
        have := applyDeltas_get_not_mem rest _ t kd.1 hnot happ
        rw [this, State.get_insert_self, State.getD]
      · have hne : kd.1 ≠ kd0.1 := by
          intro he
          exact hnd.1 (he ▸ List.mem_map_of_mem Prod.fst h2)
        have := ih _ hnd.2 h2 happ
        rwa [State.getD, State.get_insert_ne _ _ _ _ hne, ← State.getD] at this

/-! ### Goal scoring lemmas -/

theorem Goal.discontentment_nonneg (g : Goal) (v : ℤ)
    (hw : 0 ≤ g.weight) (ht : 0 ≤ g.target) : 0 ≤ g.discontentment v := by
  have hcast : (0 : ℚ) ≤ (g.target : ℚ) := by exact_mod_cast ht
  obtain ⟨w, prop, t, k⟩ := g
  cases k with
  | StayAbove =>
    simp only [Goal.discontentment] at *
    by_cases hlt : v < t
    · simp only [hlt, if_true]
      refine mul_nonneg (div_nonneg ?_ hcast) hw
      exact_mod_cast le_max_right (t - v) 0
    · simp [hlt]
  | StayBelow =>
    simp only [Goal.discontentment] at *
    by_cases hlt : t < v
    · simp only [hlt, if_true]
      refine mul_nonneg (div_nonneg ?_ hcast) hw
      exact_mod_cast le_max_right (v - t) 0
    · simp [hlt]

/-- The data-model constraint of the spec on a goal set: non-negative weights
(and targets, which the code's normalization by the target additionally
needs). -/
def goalsOK (goals : List (String × Goal)) : Prop :=
  ∀ ng ∈ goals, 0 ≤ ng.2.weight ∧ 0 ≤ ng.2.target

instance goalsOK_decidable (goals : List (String × Goal)) : Decidable (goalsOK goals) :=
  inferInstanceAs (Decidable (∀ ng ∈ goals, 0 ≤ ng.2.weight ∧ 0 ≤ ng.2.target))

theorem calculate_discontentment_nonneg (m : Model) (h : goalsOK m.goals) :
    0 ≤ m.calculate_discontentment := by
  unfold Model.calculate_discontentment
  have aux : ∀ (l : List (String × Goal)) (acc : ℚ), 0 ≤ acc →
      (∀ ng ∈ l, 0 ≤ ng.2.weight ∧ 0 ≤ ng.2.target) →
      0 ≤ l.foldl (fun total ng => total + ng.2.discontentment (m.state.getD ng.1)) acc := by
    intro l
    induction l with
    | nil => intro acc hacc _; simpa using hacc
    | cons ng rest ih =>
      intro acc hacc hl
      simp only [List.foldl_cons]
      refine ih _ ?_ (fun x hx => hl x (List.mem_cons_of_mem _ hx))
      have hng := hl ng (List.mem_cons_self _ _)
      exact add_nonneg hacc (Goal.discontentment_nonneg _ _ hng.1 hng.2)
  exact aux m.goals 0 le_rfl h

/-! ### Lemmas about `Model.apply` and `best_total_plan` -/

theorem Model.apply_goals {m m' : Model} {a : Action} (h : m.apply a = some m') :
    m'.goals = m.goals := by
  unfold Model.apply at h
  cases hs : m.state.apply a with
  | none => simp [hs] at h
  | some ns =>
    simp only [hs] at h
    injection h with h'
    rw [← h']

/-- The score component of a `bestTotalStep` fold: `min` over the baseline
and the applicable one-step continuations scored by `f`. -/
def minScoreStep (f : Model → ℚ) (model : Model) (c : ℚ) (la : String × Action) : ℚ :=
  match model.apply la.2 with
  | none => c
  | some next_model => min c (f next_model)

theorem foldl_minScoreStep_le_init (f : Model → ℚ) (model : Model) :
    ∀ (l : List (String × Action)) (c : ℚ),
      List.foldl (minScoreStep f model) c l ≤ c := by
  intro l
  induction l with
  | nil => intro c; simp
  | cons la rest ih =>
    intro c
    simp only [List.foldl_cons]
    refine le_trans (ih _) ?_
    unfold minScoreStep
    cases model.apply la.2 with
    | none => exact le_rfl
    | some nm => exact min_le_left _ _

theorem foldl_minScoreStep_mono (f₁ f₂ : Model → ℚ) (model : Model) :
    ∀ (l : List (String × Action)) (c₁ c₂ : ℚ), c₁ ≤ c₂ →
      (∀ la ∈ l, ∀ nm, model.apply la.2 = some nm → f₁ nm ≤ f₂ nm) →
      List.foldl (minScoreStep f₁ model) c₁ l ≤ List.foldl (minScoreStep f₂ model) c₂ l := by
  intro l
  induction l with
  | nil => intro c₁ c₂ hc _; simpa using hc
  | cons la rest ih =>
    intro c₁ c₂ hc hf
    simp only [List.foldl_cons]
    refine ih _ _ ?_ (fun x hx => hf x (List.mem_cons_of_mem _ hx))
    unfold minScoreStep
    cases happ : model.apply la.2 with
    | none => exact hc
    | some nm => exact min_le_min hc (hf la (List.mem_cons_self _ _) nm happ)

theorem foldl_minScoreStep_nonneg (f : Model → ℚ) (model : Model) :
    ∀ (l : List (String × Action)) (c : ℚ), 0 ≤ c →
      (∀ la ∈ l, ∀ nm, model.apply la.2 = some nm → 0 ≤ f nm) →
      0 ≤ List.foldl (minScoreStep f model) c l := by
  intro l
  induction l with
  | nil => intro c hc _; simpa using hc
  | cons la rest ih =>
    intro c hc hf
    simp only [List.foldl_cons]
    refine ih _ ?_ (fun x hx => hf x (List.mem_cons_of_mem _ hx))
    unfold minScoreStep
    cases happ : model.apply la.2 with
    | none => exact hc
    | some nm => exact le_min hc (hf la (List.mem_cons_self _ _) nm happ)

theorem foldl_minScoreStep_congr (f₁ f₂ : Model → ℚ) (model : Model) :
    ∀ (l : List (String × Action)) (c : ℚ),
      (∀ la ∈ l, ∀ nm, model.apply la.2 = some nm → f₁ nm = f₂ nm) →
      List.foldl (minScoreStep f₁ model) c l = List.foldl (minScoreStep f₂ model) c l := by
  intro l
  induction l with
  | nil => intro c _; rfl
  | cons la rest ih =>
    intro c hf
    simp only [List.foldl_cons]
    have hstep : minScoreStep f₁ model c la = minScoreStep f₂ model c la := by
      unfold minScoreStep
      cases happ : model.apply la.2 with
      | none => rfl
      | some nm =>
        dsimp only
        rw [hf la (List.mem_cons_self _ _) nm happ]
    rw [hstep]
    exact ih _ (fun x hx => hf x (List.mem_cons_of_mem _ hx))

theorem bestTotal_fold_fst (solve : Model → Plan) (model : Model) :
    ∀ (l : List (String × Action)) (acc : ℚ × ℤ × List (String × Action)),
      (List.foldl (bestTotalStep solve model) acc l).1 =
        List.foldl (minScoreStep (fun nm => (solve nm).total_discontentment) model) acc.1 l := by
  intro l
  induction l with
  | nil => intro acc; rfl
  | cons la rest ih =>
    intro acc
    simp only [List.foldl_cons]
    rw [ih]
    congr 1
    unfold bestTotalStep minScoreStep
    cases happ : model.apply la.2 with
    | none => rfl
    | some nm =>
      dsimp only
      by_cases hc : (solve nm).total_discontentment < acc.1 ∨
          ((solve nm).total_discontentment = acc.1 ∧
            (solve nm).total_time + la.2.duration < acc.2.1)
      · rw [if_pos hc]
        rcases hc with h | h
        · exact (min_eq_right h.le).symm
        · rw [h.1]
          exact (min_self _).symm
      · rw [if_neg hc]
        push_neg at hc
        exact (min_eq_left hc.1).symm

/-- The pure score that `best_total_plan` realizes: minimum discontentment
over the do-nothing baseline and all depth-bounded continuations. -/
def bestScore (acts : List (String × Action)) : ℕ → Model → ℚ
  | 0, m => m.calculate_discontentment
  | d + 1, m =>
    acts.foldl (minScoreStep (bestScore acts d) m) m.calculate_discontentment

theorem best_total_plan_disc (p : Planner) :
    ∀ (d : ℕ) (m : Model),
      (p.best_total_plan m d).total_discontentment = bestScore p.actions d m := by
  intro d
  induction d with
  | zero => intro m; rfl
  | succ d ih =>
    intro m
    simp only [Planner.best_total_plan, bestScore]
    rw [bestTotal_fold_fst]
    exact foldl_minScoreStep_congr (fun nm => (p.best_total_plan nm d).total_discontentment)
      (bestScore p.actions d) m p.actions m.calculate_discontentment
      (fun la hla nm happ => ih nm)

theorem bestScore_le (acts : List (String × Action)) (d : ℕ) (m : Model) :
    bestScore acts d m ≤ m.calculate_discontentment := by
  cases d with
  | zero => exact le_rfl
  | succ d => exact foldl_minScoreStep_le_init _ _ _ _

theorem bestScore_mono (acts : List (String × Action)) :
    ∀ (d : ℕ) (m : Model), bestScore acts (d + 1) m ≤ bestScore acts d m := by
  intro d
  induction d with
  | zero => intro m; exact bestScore_le acts 1 m
  | succ d ih =>
    intro m
    show List.foldl _ _ _ ≤ List.foldl _ _ _
    exact foldl_minScoreStep_mono _ _ _ _ _ _ le_rfl (fun la _ nm _ => ih nm)

theorem bestScore_nonneg (acts : List (String × Action)) :
    ∀ (d : ℕ) (m : Model), goalsOK m.goals → 0 ≤ bestScore acts d m := by
  intro d
  induction d with
  | zero => intro m hg; exact calculate_discontentment_nonneg m hg
  | succ d ih =>
    intro m hg
    refine foldl_minScoreStep_nonneg _ _ _ _ (calculate_discontentment_nonneg m hg) ?_
    intro la _ nm happ
    exact ih nm ((Model.apply_goals happ) ▸ hg)

theorem bestTotal_fold_inv (solve : Model → Plan) (model : Model) (C : ℚ)
    (hsub : ∀ (la : String × Action) (nm : Model),
      model.apply la.2 = some nm → 0 ≤ (solve nm).total_time) :
    ∀ (l : List (String × Action)), (∀ la ∈ l, 0 ≤ la.2.duration) →
      ∀ acc : ℚ × ℤ × List (String × Action),
        0 ≤ acc.2.1 → acc.1 ≤ C → (acc.1 = C → acc.2.2 = [] ∧ acc.2.1 = 0) →
        0 ≤ (List.foldl (bestTotalStep solve model) acc l).2.1 ∧
          (List.foldl (bestTotalStep solve model) acc l).1 ≤ C ∧
          ((List.foldl (bestTotalStep solve model) acc l).1 = C →
            (List.foldl (bestTotalStep solve model) acc l).2.2 = [] ∧
              (List.foldl (bestTotalStep solve model) acc l).2.1 = 0) := by
  intro l
  induction l with
  | nil => intro _ acc h1 h2 h3; exact ⟨h1, h2, h3⟩
  | cons la rest ih =>
    intro hdur acc h1 h2 h3
    simp only [List.foldl_cons]
    have hdr : ∀ x ∈ rest, 0 ≤ x.2.duration :=
      fun x hx => hdur x (List.mem_cons_of_mem _ hx)
    have hstep : 0 ≤ (bestTotalStep solve model acc la).2.1 ∧
        (bestTotalStep solve model acc la).1 ≤ C ∧
        ((bestTotalStep solve model acc la).1 = C →
          (bestTotalStep solve model acc la).2.2 = [] ∧
            (bestTotalStep solve model acc la).2.1 = 0) := by
      unfold bestTotalStep
      cases happ : model.apply la.2 with
      | none => exact ⟨h1, h2, h3⟩
      | some nm =>
        dsimp only
        by_cases hc : (solve nm).total_discontentment < acc.1 ∨
            ((solve nm).total_discontentment = acc.1 ∧
              (solve nm).total_time + la.2.duration < acc.2.1)
        · rw [if_pos hc]
          have htime : 0 ≤ (solve nm).total_time + la.2.duration :=
            add_nonneg (hsub la nm happ) (hdur la (List.mem_cons_self _ _))
          rcases hc with h | h
          · exact ⟨htime, (lt_of_lt_of_le h h2).le,
              fun he => absurd he (ne_of_lt (lt_of_lt_of_le h h2))⟩
          · refine ⟨htime, h.1 ▸ h2, fun he => ?_⟩
            have hacc : acc.1 = C := h.1 ▸ he
            have := (h3 hacc).2
            rw [this] at h
            exact absurd h.2 (not_lt.mpr htime)
        · rw [if_neg hc]
          exact ⟨h1, h2, h3⟩
    exact ih hdr _ hstep.1 hstep.2.1 hstep.2.2

theorem best_total_plan_inv (p : Planner)
    (hdur : ∀ la ∈ p.actions, 0 ≤ la.2.duration) :
    ∀ (d : ℕ) (m : Model),
      0 ≤ (p.best_total_plan m d).total_time ∧
        ((p.best_total_plan m d).total_discontentment = m.calculate_discontentment →
          (p.best_total_plan m d).actions = [] ∧ (p.best_total_plan m d).total_time = 0) := by
  intro d
  induction d with
  | zero => intro m; exact ⟨le_rfl, fun _ => ⟨rfl, rfl⟩⟩
  | succ d ih =>
    intro m
    have h := bestTotal_fold_inv (fun nm => p.best_total_plan nm d) m
      m.calculate_discontentment (fun la nm _ => (ih nm).1) p.actions hdur
      (m.calculate_discontentment, 0, []) le_rfl le_rfl (fun _ => ⟨rfl, rfl⟩)
    simp only [Planner.best_total_plan]
    exact ⟨h.1, h.2.2⟩

/-! ### Replay lemmas for the Best-mode recursions -/

theorem replayM_append_single (start mid next : Model) (pl : List (String × Action))
    (la : String × Action) (h1 : replayM start pl = some mid)
    (h2 : mid.apply la.2 = some next) :
    replayM start (pl ++ [la]) = some next := by
  induction pl generalizing start with
  | nil =>
    simp only [replayM] at h1
    injection h1 with h1
    subst h1
    simp [replayM, h2]
  | cons x rest ih =>
    simp only [replayM, List.cons_append] at h1 ⊢
    cases hx : start.apply x.2 with
    | none =>
      rw [hx] at h1
      exact absurd h1 (by simp)
    | some m1 =>
      rw [hx] at h1
      dsimp only at h1 ⊢
      exact ih m1 h1

theorem bestTotal_fold_replay (solve : Model → Plan) (model : Model)
    (hsolve : ∀ (la : String × Action) (nm : Model), model.apply la.2 = some nm →
      (replayM nm (solve nm).actions).isSome = true) :
    ∀ (l : List (String × Action)) (acc : ℚ × ℤ × List (String × Action)),
      (replayM model acc.2.2).isSome = true →
      (replayM model (List.foldl (bestTotalStep solve model) acc l).2.2).isSome = true := by
  intro l
  induction l with
  | nil => intro acc h; exact h
  | cons la rest ih =>
    intro acc h
    simp only [List.foldl_cons]
    refine ih _ ?_
    unfold bestTotalStep
    cases happ : model.apply la.2 with
    | none => exact h
    | some nm =>
      dsimp only
      by_cases hc : (solve nm).total_discontentment < acc.1 ∨
          ((solve nm).total_discontentment = acc.1 ∧
            (solve nm).total_time + la.2.duration < acc.2.1)
      · rw [if_pos hc]
        show (replayM model (la :: (solve nm).actions)).isSome = true
        simp only [replayM, happ]
        exact hsolve la nm happ
      · rw [if_neg hc]
        exact h

theorem best_total_plan_replay (p : Planner) :
    ∀ (d : ℕ) (m : Model), (replayM m (p.best_total_plan m d).actions).isSome = true := by
  intro d
  induction d with
  | zero => intro m; rfl
  | succ d ih =>
    intro m
    simp only [Planner.best_total_plan]
    exact bestTotal_fold_replay _ m (fun la nm _ => ih nm) p.actions _ rfl

theorem bestEfficiency_fold_replay (solve : Model → Plan) (cs : ℚ) (model : Model)
    (hsolve : ∀ (la : String × Action) (nm : Model), model.apply la.2 = some nm →
      (replayM nm (solve nm).actions).isSome = true) :
    ∀ (l : List (String × Action)) (acc : ℚ × ℤ × ℚ × List (String × Action)),
      (replayM model acc.2.2.2).isSome = true →
      (replayM model
        (List.foldl (bestEfficiencyStep solve cs model) acc l).2.2.2).isSome = true := by
  intro l
  induction l with
  | nil => intro acc h; exact h
  | cons la rest ih =>
    intro acc h
    simp only [List.foldl_cons]
    refine ih _ ?_
    unfold bestEfficiencyStep
    cases happ : model.apply la.2 with
    | none => exact h
    | some nm =>
      dsimp only
      by_cases hc : acc.1 < (cs - (solve nm).total_discontentment) /
            ((max ((solve nm).total_time + la.2.duration) 1 : ℤ) : ℚ) ∨
          ((cs - (solve nm).total_discontentment) /
              ((max ((solve nm).total_time + la.2.duration) 1 : ℤ) : ℚ) = acc.1 ∧
            (solve nm).total_time + la.2.duration < acc.2.1)
      · rw [if_pos hc]
        show (replayM model (la :: (solve nm).actions)).isSome = true
        simp only [replayM, happ]
        exact hsolve la nm happ
      · rw [if_neg hc]
        exact h

theorem best_efficiency_plan_replay (p : Planner) :
    ∀ (d : ℕ) (m : Model),
      (replayM m (p.best_efficiency_plan m d).actions).isSome = true := by
  intro d
  induction d with
  | zero => intro m; rfl
  | succ d ih =>
    intro m
    simp only [Planner.best_efficiency_plan]
    exact bestEfficiency_fold_replay _ _ m (fun la nm _ => ih nm) p.actions _ rfl

theorem bestHybrid_fold_replay (solve : Model → Plan) (cs : ℚ) (depth : ℕ) (model : Model)
    (hsolve : ∀ (la : String × Action) (nm : Model), model.apply la.2 = some nm →
      (replayM nm (solve nm).actions).isSome = true) :
    ∀ (l : List (String × Action)) (acc : ℚ × ℤ × List (String × Action)),
      (replayM model acc.2.2).isSome = true →
      (replayM model
        (List.foldl (bestHybridStep solve cs depth model) acc l).2.2).isSome = true := by
  intro l
  induction l with
  | nil => intro acc h; exact h
  | cons la rest ih =>
    intro acc h
    simp only [List.foldl_cons]
    refine ih _ ?_
    unfold bestHybridStep
    cases happ : model.apply la.2 with
    | none => exact h
    | some nm =>
      dsimp only
      set metric := if 2 < depth ∧
          1 / 10 < (cs - nm.calculate_discontentment) / ((max la.2.duration 1 : ℤ) : ℚ) then
          1 / ((cs - nm.calculate_discontentment) / ((max la.2.duration 1 : ℤ) : ℚ) + 1 / 1000000)
        else nm.calculate_discontentment with hmetric
      by_cases hc : metric < acc.1 ∨
          (metric = acc.1 ∧ (solve nm).total_time + la.2.duration < acc.2.1)
      · rw [if_pos hc]
        show (replayM model (la :: (solve nm).actions)).isSome = true
        simp only [replayM, happ]
        exact hsolve la nm happ
      · rw [if_neg hc]
        exact h

theorem best_hybrid_plan_replay (p : Planner) :
    ∀ (d : ℕ) (m : Model),
      (replayM m (p.best_hybrid_plan m d).actions).isSome = true := by
  intro d
  induction d with
  | zero => intro m; rfl
  | succ d ih =>
    intro m
    simp only [Planner.best_hybrid_plan]
    exact bestHybrid_fold_replay _ _ _ m (fun la nm _ => ih nm) p.actions _ rfl

/-! ### The Fast-mode loop invariant -/

theorem popMinNode_mem :
    ∀ (l : List AStarNode) (n : AStarNode) (rest : List AStarNode),
      popMinNode l = some (n, rest) → n ∈ l ∧ ∀ x ∈ rest, x ∈ l := by
  intro l
  induction l with
  | nil => intro n rest h; exact absurd h (by simp [popMinNode])
  | cons a l ih =>
    intro n rest h
    unfold popMinNode at h
    cases hl : popMinNode l with
    | none =>
      rw [hl] at h
      dsimp only at h
      injection h with h
      rw [Prod.mk.injEq] at h
      obtain ⟨rfl, rfl⟩ := h
      exact ⟨List.mem_cons_self _ _, by simp⟩
    | some mr =>
      obtain ⟨m, rest'⟩ := mr
      rw [hl] at h
      dsimp only at h
      have hml := ih m rest' hl
      by_cases hle : a.estimated_total ≤ m.estimated_total
      · rw [if_pos hle] at h
        injection h with h
        rw [Prod.mk.injEq] at h
        obtain ⟨rfl, rfl⟩ := h
        exact ⟨List.mem_cons_self _ _, fun x hx => List.mem_cons_of_mem _ hx⟩
      · rw [if_neg hle] at h
        injection h with h
        rw [Prod.mk.injEq] at h
        obtain ⟨rfl, rfl⟩ := h
        refine ⟨List.mem_cons_of_mem _ hml.1, fun x hx => ?_⟩
        rcases List.mem_cons.mp hx with h1 | h2
        · exact h1 ▸ List.mem_cons_self _ _
        · exact List.mem_cons_of_mem _ (hml.2 x h2)

/-- The shared invariance principle of the three Fast-mode loops: any node
property `N` preserved by expansion and any plan property `P` holding of the
fallback and of every terminal node's plan holds of the loop's result. -/
theorem fastLoop_inv (acts : List (String × Action)) (gStep : AStarNode → Action → Model → ℚ)
    (maxd : ℕ) (fallback : Plan) (P : Plan → Prop) (N : AStarNode → Prop)
    (hfb : P fallback)
    (hret : ∀ n : AStarNode, N n → P ⟨n.model.calculate_discontentment, n.time, n.plan⟩)
    (hpush : ∀ (n : AStarNode) (la : String × Action) (next : Model),
      N n → n.model.apply la.2 = some next → N (pushNode gStep n la next)) :
    ∀ (fuel : ℕ) (visited : List (State × ℚ)) (frontier : List AStarNode),
      (∀ n ∈ frontier, N n) →
      P (fastLoop acts gStep maxd fallback fuel visited frontier) := by
  intro fuel
  induction fuel with
  | zero => intro visited frontier _; exact hfb
  | succ fuel ih =>
    intro visited frontier hfr
    unfold fastLoop
    cases hpop : popMinNode frontier with
    | none => exact hfb
    | some nr =>
      obtain ⟨node, rest⟩ := nr
      have hmem := popMinNode_mem frontier node rest hpop
      have hN : N node := hfr node hmem.1
      have hrest : ∀ n ∈ rest, N n := fun n hn => hfr n (hmem.2 n hn)
      dsimp only
      have hpushes : ∀ x ∈ acts.filterMap (fun la =>
          match node.model.apply la.2 with
          | none => none
          | some next_model =>
            let new_g := gStep node la.2 next_model
            let ok :=
              match visitedLookup (visitedInsert visited node.model.state node.cost_so_far)
                  next_model.state with
              | none => true
              | some old_g => decide (new_g < old_g)
            if ok then some (pushNode gStep node la next_model) else none), N x := by
        intro x hx
        obtain ⟨la, hla, hfa⟩ := List.mem_filterMap.mp hx
        cases happ : node.model.apply la.2 with
        | none => rw [happ] at hfa; exact absurd hfa (by simp)
        | some next_model =>
          rw [happ] at hfa
          dsimp only at hfa
          by_cases hok : (match visitedLookup
              (visitedInsert visited node.model.state node.cost_so_far) next_model.state with
            | none => true
            | some old_g => decide (gStep node la.2 next_model < old_g)) = true
          · rw [if_pos hok] at hfa
            injection hfa with hfa
            exact hfa ▸ hpush node la next_model hN happ
          · rw [if_neg hok] at hfa
            exact absurd hfa (by simp)
      by_cases hskip : (match visitedLookup visited node.model.state with
          | some best_known => decide (best_known < node.cost_so_far)
          | none => false) = true
      · rw [if_pos hskip]
        exact ih visited rest hrest
      · rw [if_neg hskip]
        by_cases hterm : node.model.calculate_discontentment < f32EPSILON ∨
            maxd ≤ node.plan.length
        · rw [if_pos hterm]
          exact hret node hN
        · rw [if_neg hterm]
          refine ih _ _ (fun n hn => ?_)
          rcases List.mem_append.mp hn with h1 | h2
          · exact hrest n h1
          · exact hpushes n h2

/-! ### Discontentment bounds for `best_efficiency_plan` -/

theorem bestEfficiency_fold_disc_nonneg (solve : Model → Plan) (cs : ℚ) (model : Model)
    (hsolve : ∀ (la : String × Action) (nm : Model), model.apply la.2 = some nm →
      0 ≤ (solve nm).total_discontentment) :
    ∀ (l : List (String × Action)) (acc : ℚ × ℤ × ℚ × List (String × Action)),
      0 ≤ acc.2.2.1 →
      0 ≤ (List.foldl (bestEfficiencyStep solve cs model) acc l).2.2.1 := by
  intro l
  induction l with
  | nil => intro acc h; exact h
  | cons la rest ih =>
    intro acc h
    simp only [List.foldl_cons]
    refine ih _ ?_
    unfold bestEfficiencyStep
    cases happ : model.apply la.2 with
    | none => exact h
    | some nm =>
      dsimp only
      by_cases hc : acc.1 < (cs - (solve nm).total_discontentment) /
            ((max ((solve nm).total_time + la.2.duration) 1 : ℤ) : ℚ) ∨
          ((cs - (solve nm).total_discontentment) /
              ((max ((solve nm).total_time + la.2.duration) 1 : ℤ) : ℚ) = acc.1 ∧
            (solve nm).total_time + la.2.duration < acc.2.1)
      · rw [if_pos hc]
        exact hsolve la nm happ
      · rw [if_neg hc]
        exact h

theorem best_efficiency_plan_disc_nonneg (p : Planner) :
    ∀ (d : ℕ) (m : Model), goalsOK m.goals →
      0 ≤ (p.best_efficiency_plan m d).total_discontentment := by
  intro d
  induction d with
  | zero => intro m hg; exact calculate_discontentment_nonneg m hg
  | succ d ih =>
    intro m hg
    simp only [Planner.best_efficiency_plan]
    refine bestEfficiency_fold_disc_nonneg _ _ m ?_ p.actions _
      (calculate_discontentment_nonneg m hg)
    intro la nm happ
    exact ih nm ((Model.apply_goals happ) ▸ hg)

/-! ### Empty goal sets -/

theorem calculate_discontentment_empty (m : Model) (h : m.goals = []) :
    m.calculate_discontentment = 0 := by
  unfold Model.calculate_discontentment
  rw [h]
  rfl

theorem foldl_fixed {α β : Type _} (f : α → β → α) :
    ∀ (l : List β) (a : α), (∀ b ∈ l, f a b = a) → List.foldl f a l = a := by
  intro l
  induction l with
  | nil => intro a _; rfl
  | cons b rest ih =>
    intro a h
    simp only [List.foldl_cons, h b (List.mem_cons_self _ _)]
    exact ih a (fun x hx => h x (List.mem_cons_of_mem _ hx))

theorem best_total_plan_empty_goals (p : Planner)
    (hdur : ∀ la ∈ p.actions, 0 ≤ la.2.duration) :
    ∀ (d : ℕ) (m : Model), m.goals = [] → p.best_total_plan m d = ⟨0, 0, []⟩ := by
  intro d
  induction d with
  | zero =>
    intro m h
    simp [Planner.best_total_plan, calculate_discontentment_empty m h]
  | succ d ih =>
    intro m h
    have hd := calculate_discontentment_empty m h
    simp only [Planner.best_total_plan]
    have hfold : List.foldl (bestTotalStep (fun nm => p.best_total_plan nm d) m)
        (m.calculate_discontentment, 0, []) p.actions
        = (m.calculate_discontentment, 0, []) := by
      apply foldl_fixed
      intro la hla
      unfold bestTotalStep
      cases happ : m.apply la.2 with
      | none => rfl
      | some nm =>
        dsimp only
        rw [ih nm ((Model.apply_goals happ).trans h)]
        rw [if_neg]
        intro hcond
        rcases hcond with h1 | h2
        · rw [hd] at h1
          exact absurd h1 (by norm_num)
        · have ht := h2.2
          have hge := hdur la hla
          simp only at ht
          rw [zero_add] at ht
          exact absurd ht (not_lt.mpr hge)
    rw [hfold, hd]

theorem f32EPSILON_pos : 0 < f32EPSILON := by
  with_unfolding_all decide

theorem fastLoop_start_done (acts : List (String × Action))
    (gStep : AStarNode → Action → Model → ℚ) (maxd fuel : ℕ) (m : Model) (c e : ℚ)
    (hd : m.calculate_discontentment = 0) :
    fastLoop acts gStep maxd ⟨m.calculate_discontentment, 0, []⟩ fuel []
      [⟨c, e, 0, m, []⟩] = ⟨0, 0, []⟩ := by
  cases fuel with
  | zero =>
    show (⟨m.calculate_discontentment, 0, []⟩ : Plan) = _
    rw [hd]
  | succ fuel =>
    unfold fastLoop
    have hpop : popMinNode [(⟨c, e, 0, m, []⟩ : AStarNode)]
        = some (⟨c, e, 0, m, []⟩, []) := rfl
    rw [hpop]
    dsimp only
    rw [if_neg (by simp [visitedLookup])]
    rw [if_pos (Or.inl (by rw [hd]; exact f32EPSILON_pos))]
    rw [hd]

/-! ### Claim theorems about State and Goal -/

/-- C3 (amended): with the deltas' keys distinct (as they are in a
`HashMap`), `State::apply` succeeds iff every `(key, delta)` keeps
`state.get(key) (default 0) + delta` non-negative; on success every touched
key holds exactly the old value plus its delta (hence is non-negative), every
untouched key is carried over unchanged, and the successor is free of
negative values whenever the input state was; on failure no successor is
produced (the input is immutable, so partial updates are never committed).
The original claim's unconditional "the successor has no negative property
value" fails for negative values already present in the input state at keys
the action does not touch — see the counterexample. -/
theorem C3_apply_characterization (s : State) (a : Action)
    (hnd : (a.deltas.map Prod.fst).Nodup) :
    ((s.apply a).isSome ↔ ∀ kd ∈ a.deltas, 0 ≤ s.getD kd.1 + kd.2) ∧
    (∀ t, s.apply a = some t →
      (∀ kd ∈ a.deltas, t.get kd.1 = some (s.getD kd.1 + kd.2) ∧ 0 ≤ s.getD kd.1 + kd.2) ∧
      (∀ k, k ∉ a.deltas.map Prod.fst → t.get k = s.get k) ∧
      ((∀ k v, s.get k = some v → 0 ≤ v) → ∀ k v, t.get k = some v → 0 ≤ v)) := by
  unfold State.apply
  refine ⟨applyDeltas_isSome_iff _ _ hnd, ?_⟩
  intro t happ
  have hsome : (applyDeltas s a.deltas).isSome := by rw [happ]; rfl
  have hall := (applyDeltas_isSome_iff a.deltas s hnd).mp hsome
  refine ⟨?_, ?_, ?_⟩
  · intro kd hkd
    exact ⟨applyDeltas_get_mem _ _ _ _ hnd hkd happ, hall kd hkd⟩
  · intro k hk
    exact applyDeltas_get_not_mem _ _ _ _ hk happ
  · intro hs k v hv
    by_cases hk : k ∈ a.deltas.map Prod.fst
    · obtain ⟨kd, hkd, hfst⟩ := List.mem_map.mp hk
      subst hfst
      have hget := applyDeltas_get_mem _ _ _ kd hnd hkd happ
      rw [hget] at hv
      injection hv with h
      rw [← h]
      exact hall kd hkd
    · have := applyDeltas_get_not_mem _ _ _ k hk happ
      rw [this] at hv
      exact hs k v hv

/-- C3 witness: at `state = {gold: 10}` and the `spend` action
(`deltas = {gold: -10}`), the deltas' keys are distinct and the
characterization holds. -/
theorem C3_apply_characterization_witness :
    (([("gold", (-10 : ℤ))].map Prod.fst).Nodup) ∧
    ((((State.mk [("gold", 10)]).apply ⟨"spend", 1, [("gold", -10)]⟩).isSome ↔
        ∀ kd ∈ [("gold", (-10 : ℤ))],
          0 ≤ (State.mk [("gold", 10)]).getD kd.1 + kd.2) ∧
      (∀ t, (State.mk [("gold", 10)]).apply ⟨"spend", 1, [("gold", -10)]⟩ = some t →
        (∀ kd ∈ [("gold", (-10 : ℤ))],
          t.get kd.1 = some ((State.mk [("gold", 10)]).getD kd.1 + kd.2) ∧
            0 ≤ (State.mk [("gold", 10)]).getD kd.1 + kd.2) ∧
        (∀ k, k ∉ [("gold", (-10 : ℤ))].map Prod.fst →
          t.get k = (State.mk [("gold", 10)]).get k) ∧
        ((∀ k v, (State.mk [("gold", 10)]).get k = some v → 0 ≤ v) →
          ∀ k v, t.get k = some v → 0 ≤ v))) :=
  ⟨by decide, C3_apply_characterization (State.mk [("gold", 10)])
    ⟨"spend", 1, [("gold", -10)]⟩ (by decide)⟩

/-- C3 counterexample: the claim's conjunct "the successor has no negative
property value" is false as stated: a state already holding `p = -1` applied
to an action touching only `q` succeeds and carries `p = -1` into the
successor. -/
theorem C3_apply_counterexample :
    ((State.mk [("p", -1)]).apply ⟨"q5", 1, [("q", 5)]⟩).map (fun t => t.get "p")
      = some (some (-1)) ∧ ((-1 : ℤ) < 0) := by
  with_unfolding_all decide

/-- C4 (amended): the code's discontentment is `weight * delta / target` —
the deviation is normalized by the target, there is no `scale` field, and the
only kinds are StayAbove and StayBelow (no StayAt): with
`current = state.get(goal.property) (default 0)`, delta is
`max(target - current, 0)` for StayAbove and `max(current - target, 0)` for
StayBelow. -/
theorem C4_discontentment_formula (g : Goal) (st : State) :
    g.discontentmentState st =
      g.weight *
        (((match g.kind with
          | .StayAbove => max (g.target - st.getD g.property) 0
          | .StayBelow => max (st.getD g.property - g.target) 0) : ℤ) : ℚ) /
        (g.target : ℚ) := by
  unfold Goal.discontentmentState Goal.discontentment
  obtain ⟨w, prop, t, k⟩ := g
  cases k with
  | StayAbove =>
    dsimp only
    by_cases hlt : st.getD prop < t
    · simp only [hlt, if_true]
      rw [div_mul_eq_mul_div, mul_comm]
    · simp only [hlt, if_false]
      have hz : max (t - st.getD prop) 0 = 0 := by omega
      rw [hz]
      simp
  | StayBelow =>
    dsimp only
    by_cases hlt : t < st.getD prop
    · simp only [hlt, if_true]
      rw [div_mul_eq_mul_div, mul_comm]
    · simp only [hlt, if_false]
      have hz : max (st.getD prop - t) 0 = 0 := by omega
      rw [hz]
      simp

/-- C4 counterexample: for goal `{weight 1, property p, target 10,
StayAbove}` at `p = 5` the code yields `1/2` (the deviation `5` divided by
the target `10`), not the claimed `scale * weight * delta = 1 * 1 * 5 = 5`. -/
theorem C4_discontentment_counterexample :
    Goal.discontentmentState ⟨1, "p", 10, .StayAbove⟩ ⟨[("p", 5)]⟩ = 1 / 2 ∧
    (1 / 2 : ℚ) ≠ 1 * 1 * 5 := by
  with_unfolding_all decide

/-- C5 (code bug): `impl Hash for State` feeds the key/value pairs to the
hasher in the underlying `HashMap`'s iteration order (its own comment claims
a `BTreeMap`'s sorted order, but the field is a `HashMap`), so two states
with equal content built through different insertion sequences compare equal
under the content-based `PartialEq` yet feed different streams to the hasher
and hash differently. -/
theorem C5_hash_not_content_function :
    stateContentEqb ⟨[("a", 0), ("b", 1)]⟩ ⟨[("b", 1), ("a", 0)]⟩ = true ∧
    State.hashVal ⟨[("a", 0), ("b", 1)]⟩ ≠ State.hashVal ⟨[("b", 1), ("a", 0)]⟩ := by
  with_unfolding_all decide

/-- C9 (amended): for every goal with non-negative weight (as the data model
requires) and non-negative target, and every state — any property value,
present or absent — the discontentment contribution is non-negative.  A
negative target flips the sign of the target-normalized deviation — see the
counterexample. -/
theorem C9_discontentment_nonneg (g : Goal) (st : State)
    (hw : 0 ≤ g.weight) (ht : 0 ≤ g.target) :
    0 ≤ g.discontentmentState st :=
  Goal.discontentment_nonneg g (st.getD g.property) hw ht

/-- C9 witness: for the goal `{weight 1, property wood, target 10,
StayAbove}` at the empty state its discontentment is non-negative. -/
theorem C9_discontentment_nonneg_witness :
    (0 : ℚ) ≤ (⟨1, "wood", 10, .StayAbove⟩ : Goal).weight ∧
    (0 : ℤ) ≤ (⟨1, "wood", 10, .StayAbove⟩ : Goal).target ∧
    0 ≤ (⟨1, "wood", 10, .StayAbove⟩ : Goal).discontentmentState ⟨[]⟩ :=
  ⟨by with_unfolding_all decide, by decide,
    C9_discontentment_nonneg ⟨1, "wood", 10, .StayAbove⟩ ⟨[]⟩
      (by with_unfolding_all decide) (by decide)⟩

/-- C9 counterexample: with target `-1` (weight `1 ≥ 0`), kind StayAbove and
current value `-2`, the code computes `((-1) - (-2)) / (-1) * 1 = -1 < 0`. -/
theorem C9_discontentment_counterexample :
    Goal.discontentmentState ⟨1, "p", -1, .StayAbove⟩ ⟨[("p", -2)]⟩ < 0 := by
  with_unfolding_all decide

/-! ### Claim theorems about the Planner -/

/-- C1 (confirmed): for every planner configuration (any algorithm, any
solution mode, any max_depth, any action library), any fuel bound on the
Fast-mode loops, and every start Model, the Plan returned by `Planner::plan`
contains only applicable actions: replaying its action sequence in order from
the start Model via `Model::apply` succeeds at every step. -/
theorem C1_plan_replayable (p : Planner) (fuel : ℕ) (m : Model) :
    (replayM m ((p.plan fuel m).actions)).isSome = true := by
  obtain ⟨alg, sol, maxd, acts⟩ := p
  have hfast : ∀ (gStep : AStarNode → Action → Model → ℚ) (c e : ℚ),
      (replayM m ((fastLoop acts gStep maxd ⟨m.calculate_discontentment, 0, []⟩ fuel []
        [⟨c, e, 0, m, []⟩]).actions)).isSome = true := by
    intro gStep c e
    refine fastLoop_inv acts gStep maxd ⟨m.calculate_discontentment, 0, []⟩
      (fun pl => (replayM m pl.actions).isSome = true)
      (fun n => replayM m n.plan = some n.model) rfl ?_ ?_ fuel [] _ ?_
    · intro n hn
      show (replayM m n.plan).isSome = true
      rw [hn]
      rfl
    · intro n la next hn happ
      show replayM m (n.plan ++ [la]) = some next
      exact replayM_append_single m n.model next n.plan la hn happ
    · intro n hn
      rw [List.mem_singleton.mp hn]
      rfl
  cases alg <;> cases sol
  · exact hfast gStepTotal _ _
  · exact best_total_plan_replay (Planner.mk .Traditional .Best maxd acts) maxd m
  · exact hfast gStepEfficiency _ _
  · exact best_efficiency_plan_replay (Planner.mk .Efficient .Best maxd acts) maxd m
  · exact hfast gStepHybrid _ _
  · exact best_hybrid_plan_replay (Planner.mk .Hybrid .Best maxd acts) maxd m

/-- C2 (confirmed): under Traditional/Best, for every action library,
max_depth and start Model, the returned total_discontentment never exceeds
the start Model's own discontentment (the do-nothing baseline seeds the
search). -/
theorem C2_best_traditional_no_worse (acts : List (String × Action))
    (maxd fuel : ℕ) (m : Model) :
    ((Planner.mk .Traditional .Best maxd acts).plan fuel m).total_discontentment ≤
      m.calculate_discontentment := by
  have h1 : ((Planner.mk .Traditional .Best maxd acts).plan fuel m).total_discontentment
      = bestScore acts maxd m := best_total_plan_disc _ maxd m
  rw [h1]
  exact bestScore_le acts maxd m

/-- C6 (amended): with an empty goal set (and non-negative action durations,
as the data model requires), the three Fast strategies and Traditional/Best
return the empty plan with total_discontentment 0 and total_time 0.
Efficient/Best and Hybrid/Best do not: they select zero-benefit actions —
see the counterexample. -/
theorem C6_empty_goals_plan (alg : Algorithm) (sol : Solution) (maxd : ℕ)
    (acts : List (String × Action)) (fuel : ℕ) (m : Model)
    (hgoals : m.goals = [])
    (hdur : ∀ la ∈ acts, 0 ≤ la.2.duration)
    (hconf : sol = Solution.Fast ∨ alg = Algorithm.Traditional) :
    (Planner.mk alg sol maxd acts).plan fuel m = ⟨0, 0, []⟩ := by
  have hd := calculate_discontentment_empty m hgoals
  cases alg <;> cases sol
  · exact fastLoop_start_done acts gStepTotal maxd fuel m _ _ hd
  · exact best_total_plan_empty_goals (Planner.mk .Traditional .Best maxd acts)
      hdur maxd m hgoals
  · exact fastLoop_start_done acts gStepEfficiency maxd fuel m _ _ hd
  · rcases hconf with h | h <;> exact absurd h (by decide)
  · exact fastLoop_start_done acts gStepHybrid maxd fuel m _ _ hd
  · rcases hconf with h | h <;> exact absurd h (by decide)

/-- C6 witness: Traditional/Fast with one action and no goals returns the
empty plan. -/
theorem C6_empty_goals_plan_witness :
    (Model.mk 0 ⟨[]⟩ [] []).goals = [] ∧
    (∀ la ∈ [("a", (⟨"a", 1, [("p", 1)]⟩ : Action))], 0 ≤ la.2.duration) ∧
    (Planner.mk .Traditional .Fast 1 [("a", ⟨"a", 1, [("p", 1)]⟩)]).plan 5
      (Model.mk 0 ⟨[]⟩ [] []) = ⟨0, 0, []⟩ :=
  ⟨rfl, by decide,
    C6_empty_goals_plan .Traditional .Fast 1 [("a", ⟨"a", 1, [("p", 1)]⟩)] 5
      (Model.mk 0 ⟨[]⟩ [] []) rfl (by decide) (Or.inl rfl)⟩

/-- C6 counterexample: Efficient/Best with an empty goal set, one applicable
action of duration 1 and max_depth 1 returns a plan containing that action
with total_time 1 — not the empty plan the claim requires. -/
theorem C6_empty_goals_counterexample :
    ((Planner.mk .Efficient .Best 1 [("a", ⟨"a", 1, [("p", 1)]⟩)]).plan 0
      (Model.mk 0 ⟨[]⟩ [] [])).actions ≠ [] ∧
    ((Planner.mk .Efficient .Best 1 [("a", ⟨"a", 1, [("p", 1)]⟩)]).plan 0
      (Model.mk 0 ⟨[]⟩ [] [])).total_time = 1 := by
  with_unfolding_all decide

/-- C7 (amended): for every configuration other than Hybrid/Best, and every
start Model whose goals have non-negative weights and targets (the data
model's constraint), the returned total_discontentment is ≥ 0.  Hybrid/Best
reconstructs the score as `current − 1/best_metric` and can return a negative
value — see the counterexample. -/
theorem C7_plan_disc_nonneg (alg : Algorithm) (sol : Solution) (maxd : ℕ)
    (acts : List (String × Action)) (fuel : ℕ) (m : Model)
    (hconf : ¬(alg = Algorithm.Hybrid ∧ sol = Solution.Best))
    (hgoals : goalsOK m.goals) :
    0 ≤ ((Planner.mk alg sol maxd acts).plan fuel m).total_discontentment := by
  have hfast : ∀ (gStep : AStarNode → Action → Model → ℚ) (c e : ℚ),
      0 ≤ (fastLoop acts gStep maxd ⟨m.calculate_discontentment, 0, []⟩ fuel []
        [⟨c, e, 0, m, []⟩]).total_discontentment := by
    intro gStep c e
    refine fastLoop_inv acts gStep maxd _
      (fun pl => 0 ≤ pl.total_discontentment)
      (fun n => n.model.goals = m.goals)
      (calculate_discontentment_nonneg m hgoals) ?_ ?_ fuel [] _ ?_
    · intro n hn
      exact calculate_discontentment_nonneg n.model (by rw [hn]; exact hgoals)
    · intro n la next hn happ
      show next.goals = m.goals
      exact (Model.apply_goals happ).trans hn
    · intro n hn
      rw [List.mem_singleton.mp hn]
  cases alg <;> cases sol
  · exact hfast gStepTotal _ _
  · have h1 : ((Planner.mk .Traditional .Best maxd acts).plan fuel m).total_discontentment
        = bestScore acts maxd m := best_total_plan_disc _ maxd m
    rw [h1]
    exact bestScore_nonneg acts maxd m hgoals
  · exact hfast gStepEfficiency _ _
  · exact best_efficiency_plan_disc_nonneg (Planner.mk .Efficient .Best maxd acts)
      maxd m hgoals
  · exact hfast gStepHybrid _ _
  · exact absurd ⟨rfl, rfl⟩ hconf

/-- C7 witness: Traditional/Fast on the wood-chopping scenario returns a
non-negative total_discontentment. -/
theorem C7_plan_disc_nonneg_witness :
    (¬(Algorithm.Traditional = Algorithm.Hybrid ∧ Solution.Fast = Solution.Best)) ∧
    goalsOK (Model.mk 0 ⟨[]⟩ [("wood", ⟨1, "wood", 10, .StayAbove⟩)] []).goals ∧
    0 ≤ ((Planner.mk .Traditional .Fast 3 [("chop", ⟨"chop", 1, [("wood", 5)]⟩)]).plan 10
      (Model.mk 0 ⟨[]⟩ [("wood", ⟨1, "wood", 10, .StayAbove⟩)] [])).total_discontentment :=
  ⟨by decide, by with_unfolding_all decide,
    C7_plan_disc_nonneg .Traditional .Fast 3 [("chop", ⟨"chop", 1, [("wood", 5)]⟩)] 10
      (Model.mk 0 ⟨[]⟩ [("wood", ⟨1, "wood", 10, .StayAbove⟩)] [])
      (by decide) (by with_unfolding_all decide)⟩

/-- C7 counterexample: Hybrid/Best at max_depth 1 with start discontentment 1
and one action halving it returns `1 − 1/(1/2) = −1 < 0`. -/
theorem C7_plan_disc_counterexample :
    ((Planner.mk .Hybrid .Best 1 [("a", ⟨"a", 1, [("p", 1)]⟩)]).plan 0
      (Model.mk 0 ⟨[]⟩ [("p", ⟨1, "p", 2, .StayAbove⟩)] [])).total_discontentment < 0 := by
  with_unfolding_all decide

/-- C8 (confirmed): under Traditional/Best, increasing max_depth by one never
increases the returned total_discontentment — every shorter plan remains
available as a candidate. -/
theorem C8_best_traditional_depth_mono (acts : List (String × Action))
    (d fuel₁ fuel₂ : ℕ) (m : Model) :
    ((Planner.mk .Traditional .Best (d + 1) acts).plan fuel₁ m).total_discontentment ≤
      ((Planner.mk .Traditional .Best d acts).plan fuel₂ m).total_discontentment := by
  have h1 : ((Planner.mk .Traditional .Best (d + 1) acts).plan fuel₁ m).total_discontentment
      = bestScore acts (d + 1) m := best_total_plan_disc _ (d + 1) m
  have h2 : ((Planner.mk .Traditional .Best d acts).plan fuel₂ m).total_discontentment
      = bestScore acts d m := best_total_plan_disc _ d m
  rw [h1, h2]
  exact bestScore_mono acts d m

/-- C10 (confirmed): under Traditional/Best with non-negative action
durations (the data model's constraint), an action is kept only on strict
improvement: whenever the returned total_discontentment equals the start
Model's own discontentment, the returned action sequence is empty and
total_time is 0. -/
theorem C10_best_traditional_strict_improvement (acts : List (String × Action))
    (maxd fuel : ℕ) (m : Model)
    (hdur : ∀ la ∈ acts, 0 ≤ la.2.duration)
    (heq : ((Planner.mk .Traditional .Best maxd acts).plan fuel m).total_discontentment
      = m.calculate_discontentment) :
    ((Planner.mk .Traditional .Best maxd acts).plan fuel m).actions = [] ∧
      ((Planner.mk .Traditional .Best maxd acts).plan fuel m).total_time = 0 :=
  (best_total_plan_inv (Planner.mk .Traditional .Best maxd acts) hdur maxd m).2 heq

/-- C10 witness: with the only action inapplicable (it would drive `p`
negative), the returned plan's discontentment equals the start's, and the
plan is indeed empty with zero time. -/
theorem C10_best_traditional_strict_improvement_witness :
    (∀ la ∈ [("a", (⟨"a", 1, [("p", -1)]⟩ : Action))], 0 ≤ la.2.duration) ∧
    ((Planner.mk .Traditional .Best 3 [("a", ⟨"a", 1, [("p", -1)]⟩)]).plan 0
        (Model.mk 0 ⟨[]⟩ [("g", ⟨1, "p", 1, .StayAbove⟩)] [])).total_discontentment
      = (Model.mk 0 ⟨[]⟩ [("g", ⟨1, "p", 1, .StayAbove⟩)] []).calculate_discontentment ∧
    (((Planner.mk .Traditional .Best 3 [("a", ⟨"a", 1, [("p", -1)]⟩)]).plan 0
        (Model.mk 0 ⟨[]⟩ [("g", ⟨1, "p", 1, .StayAbove⟩)] [])).actions = [] ∧
      ((Planner.mk .Traditional .Best 3 [("a", ⟨"a", 1, [("p", -1)]⟩)]).plan 0
        (Model.mk 0 ⟨[]⟩ [("g", ⟨1, "p", 1, .StayAbove⟩)] [])).total_time = 0) :=
  ⟨by decide, by with_unfolding_all decide,
    C10_best_traditional_strict_improvement [("a", ⟨"a", 1, [("p", -1)]⟩)] 3 0
      (Model.mk 0 ⟨[]⟩ [("g", ⟨1, "p", 1, .StayAbove⟩)] [])
      (by decide) (by with_unfolding_all decide)⟩

end Goap
